import Mathlib

/-!
# Verification of the `FAhrstuhl.js` elevator controller

A shallow embedding of the single-car elevator controller found in
`src/2025-10-15/FAhrstuhl.js`, together with proofs about its
direction-decision algorithm, door cycle, movement step and demand
registration.

The JavaScript class `Elevator` keeps: the floor range (`minFloor`,
`maxFloor`), `currentFloor`, `direction` (the strings `'up' | 'down' |
'idle'`), `doorsOpen`, a `Set` of internal panel requests, a
`Map<floor, Set<direction>>` of external hall calls, timing parameters and
a running flag.  Timed `await`s only suspend; every state mutation between
two suspension points is modelled as a pure state-to-state function.  The
`Map` is modelled as an association list so that a floor key with an empty
direction set is distinguishable from an absent key, exactly as in a JS
`Map`; a JS `Set` of floors is modelled as a `Finset ℤ`.
-/

/-- Travel direction of the car: the JS strings `'up'`, `'down'`, `'idle'`. -/
inductive Dir where
  | up
  | down
  | idle
deriving DecidableEq, Repr

/-- A hall-call direction.  `callFrom` normalises its `direction` argument
with `direction = direction === 'up' ? 'up' : 'down'` (line 53), so only
`'up'` and `'down'` ever enter the call map. -/
inductive HallDir where
  | up
  | down
deriving DecidableEq, Repr

/-- The normalisation `direction === 'up' ? 'up' : 'down'` of line 53. -/
def normDir (direction : String) : HallDir :=
  if direction = "up" then .up else .down

/-- The opposite hall-call direction. -/
def HallDir.opp : HallDir → HallDir
  | .up => .down
  | .down => .up

/-- The car direction matching a hall-call direction. -/
def HallDir.toDir : HallDir → Dir
  | .up => .up
  | .down => .down

/-- The set of directions registered at one floor of the `calls` map: a
subset of `{'up', 'down'}`, i.e. two booleans. -/
structure CallSet where
  up : Bool
  down : Bool
deriving DecidableEq, Repr

namespace CallSet

/-- The empty `new Set()` of line 66. -/
def empty : CallSet := ⟨false, false⟩

/-- `Set.prototype.add` for a (normalised) hall-call direction. -/
def insert (d : HallDir) (s : CallSet) : CallSet :=
  match d with
  | .up => { s with up := true }
  | .down => { s with down := true }

/-- `Set.prototype.has` queried with the car's direction string (lines 97,
173).  A call set never contains `'idle'`, so that query is `false`. -/
def has (s : CallSet) (d : Dir) : Bool :=
  match d with
  | .up => s.up
  | .down => s.down
  | .idle => false

/-- `Set.prototype.delete` for the car's direction string (line 99). -/
def erase (s : CallSet) (d : Dir) : CallSet :=
  match d with
  | .up => { s with up := false }
  | .down => { s with down := false }
  | .idle => s

/-- `size === 0` for a call set. -/
def isEmpty (s : CallSet) : Bool :=
  !s.up && !s.down

end CallSet

/-- The hall-call map `Map<floor, Set<direction>>`, as an association list. -/
abbrev Calls := List (Int × CallSet)

namespace Calls

/-- `Map.prototype.get`: the call set at `floor`, if `floor` is a key.  A
JS `Map` holds each key at most once, so first-match lookup is the lookup. -/
def get : Calls → Int → Option CallSet
  | [], _ => none
  | p :: t, floor => if p.1 = floor then some p.2 else get t floor

/-- `Map.prototype.has`. -/
def hasKey : Calls → Int → Bool
  | [], _ => false
  | p :: t, floor => p.1 = floor || hasKey t floor

/-- `Map.prototype.delete`. -/
def del : Calls → Int → Calls
  | [], _ => []
  | p :: t, floor => if p.1 = floor then del t floor else p :: del t floor

/-- Overwriting the call set stored at an existing key `floor` (the JS code
mutates the `Set` object held in the map in place; on an association list
this is replacing the value at the key). -/
def setAt : Calls → Int → CallSet → Calls
  | [], _, _ => []
  | p :: t, floor, s => if p.1 = floor then (p.1, s) :: t else p :: setAt t floor s

/-- Adding a direction to the set stored at an existing key, the in-place
`this.calls.get(floor).add(direction)` of line 67. -/
def update : Calls → Int → HallDir → Calls
  | [], _, _ => []
  | p :: t, floor, d =>
    if p.1 = floor then (p.1, p.2.insert d) :: t else p :: update t floor d

/-- Lines 66–67: `if (!this.calls.has(floor)) this.calls.set(floor, new
Set()); this.calls.get(floor).add(direction)`.  A JS `Map.set` on a fresh
key appends the entry in insertion order. -/
def add (cs : Calls) (floor : Int) (d : HallDir) : Calls :=
  if cs.hasKey floor then cs.update floor d
  else cs ++ [(floor, CallSet.empty.insert d)]

/-- Whether the pair `(floor, d)` is registered in the map. -/
def hasPair (cs : Calls) (floor : Int) (d : HallDir) : Bool :=
  match cs.get floor with
  | some s => match d with | .up => s.up | .down => s.down
  | none => false

/-- Representation invariant of a JS `Map<floor, Set>` as maintained by the
elevator: keys are pairwise distinct (a `Map` cannot repeat a key) and no
stored direction set is empty (`callFrom` only creates an entry together
with a direction, and `openDoors` deletes an entry as soon as its set
drains). -/
def WF (cs : Calls) : Prop :=
  (cs.map (·.1)).Nodup ∧ ∀ p ∈ cs, p.2.isEmpty = false

instance : DecidablePred WF := fun cs => by
  unfold WF; infer_instance

end Calls

/-- The state of one `Elevator` instance: every field of the JS constructor
(lines 13–34) that can influence a state transition.  The `name` and the
three timing parameters only feed log lines and `setTimeout` durations, so
they are carried as passive configuration. -/
structure Elevator where
  name : String
  minFloor : Int
  maxFloor : Int
  currentFloor : Int
  direction : Dir
  doorsOpen : Bool
  requests : Finset Int
  calls : Calls
  travelTimeMs : Nat
  doorOperateMs : Nat
  doorDwellMs : Nat
  running : Bool
deriving DecidableEq

namespace Elevator

/-- The constructor (lines 13–34) with explicit configuration: car at
`minFloor`, idle, doors closed, no demand, not running. -/
def mk' (minFloor maxFloor : Int) (name : String)
    (travelTimeMs doorOperateMs doorDwellMs : Nat) : Elevator :=
  { name := name
    minFloor := minFloor
    maxFloor := maxFloor
    currentFloor := minFloor
    direction := .idle
    doorsOpen := false
    requests := ∅
    calls := []
    travelTimeMs := travelTimeMs
    doorOperateMs := doorOperateMs
    doorDwellMs := doorDwellMs
    running := false }

/-- `_validFloor` (lines 37–39).  The argument is an integer by type, so
`Number.isInteger` holds; the range test remains. -/
def validFloor (e : Elevator) (floor : Int) : Bool :=
  e.minFloor ≤ floor && floor ≤ e.maxFloor

/-- `pressFloor` (lines 42–49): reject an invalid floor with no state
change, otherwise add the floor to the panel-request set. -/
def pressFloor (e : Elevator) (floor : Int) : Elevator :=
  if e.validFloor floor then
    { e with requests := insert floor e.requests }
  else
    e

/-- `callFrom` (lines 52–69): normalise the direction, then reject an
out-of-range floor, an up-call at the top floor, or a down-call at the
bottom floor, each with no state change; otherwise register the pair. -/
def callFrom (e : Elevator) (floor : Int) (direction : String) : Elevator :=
  let d := normDir direction
  if !e.validFloor floor then
    e
  else if floor == e.maxFloor && d == .up then
    e
  else if floor == e.minFloor && d == .down then
    e
  else
    { e with calls := e.calls.add floor d }

/-- The fulfilment block of `openDoors` (lines 80–103), executed right
after `doorsOpen` has become `true`: drop the current floor from the panel
requests; then, if the current floor has a non-empty call set, either clear
the whole entry (car idle) or remove just the matching direction and drop
the entry exactly when its set drains (car moving). -/
def fulfillAtFloor (e : Elevator) : Elevator :=
  let e1 := { e with requests := e.requests.erase e.currentFloor }
  match e1.calls.get e1.currentFloor with
  | none => e1
  | some s =>
    if s.isEmpty then
      e1
    else if e1.direction = .idle then
      { e1 with calls := e1.calls.del e1.currentFloor }
    else
      let s' := if s.has e1.direction then s.erase e1.direction else s
      if s'.isEmpty then
        { e1 with calls := e1.calls.del e1.currentFloor }
      else
        { e1 with calls := e1.calls.setAt e1.currentFloor s' }

/-- The completed Open transition: line 78 (`doorsOpen = true`) followed by
the fulfilment block, i.e. the state at the moment the doors stand open. -/
def doorOpenComplete (e : Elevator) : Elevator :=
  fulfillAtFloor { e with doorsOpen := true }

/-- `closeDoors` (lines 110–116): no-op when already closed, otherwise the
doors end closed. -/
def closeDoors (e : Elevator) : Elevator :=
  if e.doorsOpen then { e with doorsOpen := false } else e

/-- `openDoors` (lines 72–108): no-op when already open; otherwise run the
Open transition to completion, dwell, and auto-close (line 107). -/
def openDoors (e : Elevator) : Elevator :=
  if e.doorsOpen then e else closeDoors (doorOpenComplete e)

/-- The demand floors `_decideDirection` collects (lines 123–124): the
panel-request floors plus every key of the call map. -/
def targets (e : Elevator) : Finset Int :=
  e.requests ∪ (e.calls.map (·.1)).toFinset

/-- `_decideDirection` (lines 119–149). -/
def decideDirection (e : Elevator) : Dir :=
  if e.requests = ∅ ∧ e.calls = [] then .idle
  else
    let above := e.targets.filter (fun f => e.currentFloor < f)
    let below := e.targets.filter (fun f => f < e.currentFloor)
    match e.direction with
    | .up =>
      if above ≠ ∅ then .up
      else if below ≠ ∅ then .down
      else .idle
    | .down =>
      if below ≠ ∅ then .down
      else if above ≠ ∅ then .up
      else .idle
    | .idle =>
      if above = ∅ ∧ below = ∅ then .idle
      else if hA : above = ∅ then .down
      else if hB : below = ∅ then .up
      else
        let nearestAbove :=
          above.min' (Finset.nonempty_iff_ne_empty.mpr hA) - e.currentFloor
        let nearestBelow :=
          e.currentFloor - below.max' (Finset.nonempty_iff_ne_empty.mpr hB)
        if nearestAbove ≤ nearestBelow then .up else .down

/-- `_moveOneFloor` (lines 152–181): refuse the hop with doors open; do
nothing when idle; go idle at a range boundary; otherwise advance one floor
and open the doors when the new floor has a panel request or a hall call
matching the current direction. -/
def moveOneFloor (e : Elevator) : Elevator :=
  if e.doorsOpen then e
  else if e.direction = .idle then e
  else
    let targetFloor :=
      if e.direction = .up then e.currentFloor + 1 else e.currentFloor - 1
    if !e.validFloor targetFloor then
      { e with direction := .idle }
    else
      let e1 := { e with currentFloor := targetFloor }
      let shouldOpenForRequest : Bool := e1.currentFloor ∈ e1.requests
      let shouldOpenForCall : Bool :=
        match e1.calls.get e1.currentFloor with
        | some s => s.has e1.direction
        | none => false
      if shouldOpenForRequest || shouldOpenForCall then openDoors e1 else e1

/-- One iteration of the control loop of `start` (lines 189–205): recompute
the direction; if idle, only wait; otherwise close the doors if open and
take one movement step. -/
def loopStep (e : Elevator) : Elevator :=
  let e1 := { e with direction := e.decideDirection }
  if e1.direction = .idle then e1
  else
    let e2 := if e1.doorsOpen then closeDoors e1 else e1
    moveOneFloor e2

/-- `stop` (lines 208–211). -/
def stop (e : Elevator) : Elevator :=
  { e with running := false }

/-- The in-range predicate of the spec: all floor-valued state lies within
`[minFloor, maxFloor]`. -/
def RangeInv (e : Elevator) : Prop :=
  (e.minFloor ≤ e.currentFloor ∧ e.currentFloor ≤ e.maxFloor) ∧
  (∀ f ∈ e.requests, e.minFloor ≤ f ∧ f ≤ e.maxFloor) ∧
  (∀ p ∈ e.calls, e.minFloor ≤ p.1 ∧ p.1 ≤ e.maxFloor)

/-- The demand set as the specification words it: every panel-request floor
plus every floor with a non-empty call-direction set.  (The code's
`targets` takes every key of the call map; the two coincide on states
satisfying the map's representation invariant.)  Used to compare the
implemented direction decision against the spec's four rules. -/
def specDemand (e : Elevator) : Finset Int :=
  e.requests ∪ ((e.calls.filter (fun p => !p.2.isEmpty)).map (·.1)).toFinset

/-- The target of one hop: `current ± 1` in the travel direction (line
158). -/
def hopTarget (e : Elevator) : Int :=
  if e.direction = .up then e.currentFloor + 1 else e.currentFloor - 1

/-- The atomic transitions of the controller.  Every mutation of the state
between two `await` suspension points of the JS code is one step, and the
demand-registration operations (which run synchronously from outside the
loop) are steps as well:
* `press` / `call` — the public registration operations;
* `decideDir` — line 191, `this.direction = this._decideDirection()`;
* `close` — the atomic block of `closeDoors` (lines 114–115);
* `openComplete` — the atomic block of `openDoors` (lines 78–103), reached
  only through the guard of line 73, hence with doors closed;
* `hop` — line 167, `this.currentFloor = targetFloor`, reached only when
  the guard of line 153 found the doors closed (the loop is the sole
  mutator of `doorsOpen`, so the flag cannot change during the travel
  pause) and the target floor was validated on line 159;
* `boundary` — line 162, the defensive idle-on-boundary branch;
* `runOn` / `runOff` — the `_running` flag flips of `start` and `stop`. -/
inductive Step : Elevator → Elevator → Prop where
  | press (e : Elevator) (f : Int) : Step e (e.pressFloor f)
  | call (e : Elevator) (f : Int) (d : String) : Step e (e.callFrom f d)
  | decideDir (e : Elevator) : Step e { e with direction := e.decideDirection }
  | close (e : Elevator) : Step e e.closeDoors
  | openComplete (e : Elevator) : e.doorsOpen = false → Step e e.doorOpenComplete
  | hop (e : Elevator) : e.doorsOpen = false → e.direction ≠ .idle →
      e.validFloor e.hopTarget = true →
      Step e { e with currentFloor := e.hopTarget }
  | boundary (e : Elevator) : e.doorsOpen = false → e.direction ≠ .idle →
      e.validFloor e.hopTarget = false →
      Step e { e with direction := .idle }
  | runOn (e : Elevator) : Step e { e with running := true }
  | runOff (e : Elevator) : Step e e.stop

end Elevator

/-- A five-floor instance used for concrete evaluations: floors 1–5, car at
floor 1, idle, doors closed, no demand. -/
def lift0 : Elevator := Elevator.mk' 1 5 "lift" 400 700 0

/-- The scenario of the spec's last end-to-end property: while idle at
floor 1, `callFrom(2, 'up')` and `callFrom(2, 'down')` are both
registered before the next control-loop decision. -/
def tieScenario : Elevator := (lift0.callFrom 2 "up").callFrom 2 "down"

/-! ## Helper lemmas on the call map -/

namespace Calls

theorem get_del_self (cs : Calls) (f : Int) : (cs.del f).get f = none := by
  induction cs with
  | nil => rfl
  | cons p t ih =>
    by_cases h : p.1 = f <;> simp [del, get, h, ih]

theorem get_del_ne (cs : Calls) (f g : Int) (hg : g ≠ f) :
    (cs.del f).get g = cs.get g := by
  induction cs with
  | nil => rfl
  | cons p t ih =>
    by_cases h : p.1 = f
    · have hpg : p.1 ≠ g := by
        rw [h]
        exact fun hc => hg hc.symm
      simp [del, get, h, hpg, ih, Ne.symm hg]
    · by_cases hpg : p.1 = g <;> simp [del, get, h, hpg, ih, hg]

theorem get_setAt_self (cs : Calls) (f : Int) (s t : CallSet)
    (h : cs.get f = some t) : (cs.setAt f s).get f = some s := by
  induction cs with
  | nil => simp [get] at h
  | cons p l ih =>
    by_cases hp : p.1 = f
    · simp [setAt, get, hp]
    · rw [get, if_neg hp] at h
      simp [setAt, get, hp, ih h]

theorem get_setAt_ne (cs : Calls) (f g : Int) (s : CallSet) (hg : g ≠ f) :
    (cs.setAt f s).get g = cs.get g := by
  induction cs with
  | nil => rfl
  | cons p l ih =>
    by_cases hp : p.1 = f
    · have hpg : p.1 ≠ g := by
        rw [hp]
        exact fun hc => hg hc.symm
      simp [setAt, get, hp, hpg, Ne.symm hg]
    · by_cases hpg : p.1 = g <;> simp [setAt, get, hp, hpg, ih, hg]

theorem get_some_mem (cs : Calls) (f : Int) (s : CallSet)
    (h : cs.get f = some s) : ∃ p ∈ cs, p.1 = f ∧ p.2 = s := by
  induction cs with
  | nil => simp [get] at h
  | cons p l ih =>
    by_cases hp : p.1 = f
    · rw [get, if_pos hp] at h
      exact ⟨p, List.mem_cons_self p l, hp, Option.some.inj h⟩
    · rw [get, if_neg hp] at h
      obtain ⟨q, hq, hk, hv⟩ := ih h
      exact ⟨q, List.mem_cons_of_mem p hq, hk, hv⟩

theorem get_update_self (cs : Calls) (f : Int) (d : HallDir) (t : CallSet)
    (h : cs.get f = some t) : (cs.update f d).get f = some (t.insert d) := by
  induction cs with
  | nil => simp [get] at h
  | cons p l ih =>
    by_cases hp : p.1 = f
    · rw [get, if_pos hp] at h
      injection h with h'
      simp [update, get, hp, h']
    · rw [get, if_neg hp] at h
      simp [update, get, hp, ih h]

theorem hasKey_iff_get (cs : Calls) (f : Int) :
    cs.hasKey f = true ↔ ∃ s, cs.get f = some s := by
  induction cs with
  | nil => simp [hasKey, get]
  | cons p t ih =>
    by_cases hp : p.1 = f <;> simp [hasKey, get, hp, ih]

theorem get_append_right (cs l : Calls) (f : Int) (h : cs.hasKey f = false) :
    (cs ++ l).get f = l.get f := by
  induction cs with
  | nil => rfl
  | cons p t ih =>
    rw [hasKey] at h
    simp only [Bool.or_eq_false_iff] at h
    have hp : p.1 ≠ f := by simpa using h.1
    simpa [get, hp] using ih h.2

theorem get_add_self (cs : Calls) (f : Int) (d : HallDir) :
    (cs.add f d).get f = some (((cs.get f).getD CallSet.empty).insert d) := by
  by_cases h : cs.hasKey f = true
  · obtain ⟨s, hs⟩ := (hasKey_iff_get cs f).mp h
    rw [add, if_pos h, get_update_self cs f d s hs, hs]
    rfl
  · have h' : cs.hasKey f = false := by simpa using h
    have hget : cs.get f = none := by
      cases hg : cs.get f with
      | none => rfl
      | some s => exact absurd ((hasKey_iff_get cs f).mpr ⟨s, hg⟩) h
    rw [add, if_neg h, get_append_right cs _ f h', hget]
    simp [get]

end Calls

/-! ## C10: door transitions are no-ops in the already-reached door state -/

/-- C10.  With the doors already open, `openDoors` returns at once (line
73) and changes nothing — in particular no panel request and no hall call
is fulfilled; with the doors already closed, `closeDoors` (line 111)
changes nothing. -/
theorem openDoors_closeDoors_noop (e : Elevator) :
    (e.doorsOpen = true → e.openDoors = e) ∧
    (e.doorsOpen = false → e.closeDoors = e) := by
  constructor
  · intro h
    simp [Elevator.openDoors, h]
  · intro h
    simp [Elevator.closeDoors, h]

/-- Witness for C10 at a concrete state: the five-floor lift with doors
forced open, resp. the fresh lift with doors closed. -/
theorem openDoors_closeDoors_noop_witness :
    ({ lift0 with doorsOpen := true }.openDoors = { lift0 with doorsOpen := true }) ∧
    (lift0.closeDoors = lift0) :=
  ⟨(openDoors_closeDoors_noop { lift0 with doorsOpen := true }).1 rfl,
   (openDoors_closeDoors_noop lift0).2 rfl⟩

/-! ## C6: out-of-range registration is a complete no-op -/

/-- C6.  For a floor outside `[minFloor, maxFloor]`, `pressFloor` (line 43)
and `callFrom` (line 54), for every direction string, return the state
unchanged in every component; the embedding is total, so no exception
escapes. -/
theorem invalid_floor_noop (e : Elevator) (f : Int)
    (h : ¬(e.minFloor ≤ f ∧ f ≤ e.maxFloor)) :
    e.pressFloor f = e ∧ ∀ d : String, e.callFrom f d = e := by
  have hv : e.validFloor f = false := by
    simp only [Elevator.validFloor, Bool.and_eq_false_iff, decide_eq_false_iff_not]
    by_cases h1 : e.minFloor ≤ f
    · exact Or.inr (fun h2 => h ⟨h1, h2⟩)
    · exact Or.inl h1
  constructor
  · simp [Elevator.pressFloor, hv]
  · intro d
    simp [Elevator.callFrom, hv]

/-- Witness for C6: floor 9 lies outside the range `[1, 5]` of `lift0`. -/
theorem invalid_floor_noop_witness :
    ¬((1 : Int) ≤ 9 ∧ (9 : Int) ≤ 5) ∧
    lift0.pressFloor 9 = lift0 ∧ lift0.callFrom 9 "up" = lift0 := by
  refine ⟨by decide, ?_, ?_⟩
  · exact (invalid_floor_noop lift0 9 (by decide)).1
  · exact (invalid_floor_noop lift0 9 (by decide)).2 "up"

/-! ## C4: the car never moves while the doors are open -/

/-- C4.  The movement operation refuses the hop outright when it observes
open doors (lines 153–155), and no atomic transition of the controller
changes the car's position from a state whose doors are open: the only
transitions that touch `currentFloor` are guarded by closed doors. -/
theorem door_gated_movement :
    (∀ e : Elevator, e.doorsOpen = true → e.moveOneFloor = e) ∧
    (∀ e e' : Elevator, Elevator.Step e e' → e.doorsOpen = true →
      e'.currentFloor = e.currentFloor) := by
  constructor
  · intro e h
    simp [Elevator.moveOneFloor, h]
  · intro e e' hstep h
    cases hstep with
    | press f =>
      unfold Elevator.pressFloor
      split <;> rfl
    | call f d =>
      simp only [Elevator.callFrom]
      split
      · rfl
      · split
        · rfl
        · split <;> rfl
    | decideDir => rfl
    | close =>
      unfold Elevator.closeDoors
      split <;> rfl
    | openComplete hdo => simp [h] at hdo
    | hop hdo hdir hv => simp [h] at hdo
    | boundary hdo hdir hv => simp [h] at hdo
    | runOn => rfl
    | runOff => rfl

/-- Witness for C4: with the five-floor lift's doors forced open, the
movement step is refused, and a registration step leaves the position
fixed. -/
theorem door_gated_movement_witness :
    ({ lift0 with doorsOpen := true } : Elevator).moveOneFloor =
      { lift0 with doorsOpen := true } ∧
    (({ lift0 with doorsOpen := true } : Elevator).pressFloor 2).currentFloor =
      ({ lift0 with doorsOpen := true } : Elevator).currentFloor :=
  ⟨door_gated_movement.1 _ rfl,
   door_gated_movement.2 _ _ (Elevator.Step.press _ 2) rfl⟩

/-! ## C3: the floor-2 tie scenario clears only the matching call -/

/-- Counterexample to C3 as stated: in the scenario (idle at floor 1, both
`callFrom(2, 'up')` and `callFrom(2, 'down')` registered), the single stop
at floor 2 does NOT clear both hall-call entries — after the loop
iteration the `(2, down)` call is still registered. -/
theorem tieScenario_not_both_cleared :
    tieScenario.loopStep.currentFloor = 2 ∧
    tieScenario.loopStep.calls.hasPair 2 .down = true := by
  decide

/-- Amended C3: the car chooses Up, moves to floor 2, serves the stop
(doors have cycled back closed), and that stop clears only the `(2, up)`
entry; the `(2, down)` entry remains pending, because the car's direction
is Up — not Idle — at fulfilment time. -/
theorem tieScenario_single_stop :
    tieScenario.decideDirection = .up ∧
    tieScenario.loopStep.currentFloor = 2 ∧
    tieScenario.loopStep.doorsOpen = false ∧
    tieScenario.loopStep.calls = [(2, ⟨false, true⟩)] := by
  decide

/-! ## C7: call geometry at the range boundaries -/

theorem Calls.hasPair_add_self (cs : Calls) (f : Int) (d : HallDir) :
    (cs.add f d).hasPair f d = true := by
  unfold Calls.hasPair
  rw [Calls.get_add_self]
  cases d <;> simp [CallSet.insert]

/-- C7.  Under `minFloor < maxFloor`: an up-call at the top floor is
rejected unchanged (lines 58–61); a call at the bottom floor with any
direction string other than `'up'` normalises to Down and is rejected
unchanged (lines 62–65); and every other in-range call registers the
normalised `(floor, direction)` pair in the hall-call map. -/
theorem callFrom_geometry (e : Elevator) (h : e.minFloor < e.maxFloor) :
    (e.callFrom e.maxFloor "up" = e) ∧
    (∀ d : String, d ≠ "up" → e.callFrom e.minFloor d = e) ∧
    (∀ f : Int, ∀ d : String, e.minFloor ≤ f → f ≤ e.maxFloor →
      ¬(f = e.maxFloor ∧ normDir d = .up) →
      ¬(f = e.minFloor ∧ normDir d = .down) →
      (e.callFrom f d).calls = e.calls.add f (normDir d) ∧
      (e.callFrom f d).calls.hasPair f (normDir d) = true) := by
  refine ⟨?_, ?_, ?_⟩
  · have hv : e.validFloor e.maxFloor = true := by
      simp [Elevator.validFloor, le_of_lt h]
    have hd : normDir "up" = HallDir.up := rfl
    simp [Elevator.callFrom, hv, hd]
  · intro d hd
    have hv : e.validFloor e.minFloor = true := by
      simp [Elevator.validFloor, le_of_lt h]
    have hnd : normDir d = HallDir.down := by
      simp [normDir, hd]
    have hne : ¬(e.minFloor = e.maxFloor) := ne_of_lt h
    simp [Elevator.callFrom, hv, hnd, hne]
  · intro f d h1 h2 h3 h4
    have hv : e.validFloor f = true := by
      simp [Elevator.validFloor, h1, h2]
    have hmax : ¬((f == e.maxFloor && normDir d == HallDir.up) = true) := by
      simp only [Bool.and_eq_true, beq_iff_eq]
      exact fun hc => h3 ⟨hc.1, hc.2⟩
    have hmin : ¬((f == e.minFloor && normDir d == HallDir.down) = true) := by
      simp only [Bool.and_eq_true, beq_iff_eq]
      exact fun hc => h4 ⟨hc.1, hc.2⟩
    have hcalls : (e.callFrom f d).calls = e.calls.add f (normDir d) := by
      simp [Elevator.callFrom, hv, hmax, hmin]
    exact ⟨hcalls, by rw [hcalls]; exact Calls.hasPair_add_self _ _ _⟩

/-- Witness for C7 on the five-floor lift: `callFrom(5, 'up')` and
`callFrom(1, 'left')` are rejected, while `callFrom(3, 'up')` registers
`(3, up)`. -/
theorem callFrom_geometry_witness :
    lift0.callFrom 5 "up" = lift0 ∧
    lift0.callFrom 1 "left" = lift0 ∧
    (lift0.callFrom 3 "up").calls.hasPair 3 .up = true :=
  ⟨(callFrom_geometry lift0 (by decide)).1,
   (callFrom_geometry lift0 (by decide)).2.1 "left" (by decide),
   ((callFrom_geometry lift0 (by decide)).2.2 3 "up" (by decide) (by decide)
     (by decide) (by decide)).2⟩

/-! ## C8: registering the same demand repeatedly is idempotent -/

theorem CallSet.insert_idem (s : CallSet) (d : HallDir) :
    (s.insert d).insert d = s.insert d := by
  cases d <;> rfl

theorem Calls.update_update (cs : Calls) (f : Int) (d : HallDir) :
    (cs.update f d).update f d = cs.update f d := by
  induction cs with
  | nil => rfl
  | cons p t ih =>
    by_cases hp : p.1 = f
    · simp [Calls.update, hp, CallSet.insert_idem]
    · simp [Calls.update, hp, ih]

theorem Calls.hasKey_update (cs : Calls) (f g : Int) (d : HallDir) :
    (cs.update f d).hasKey g = cs.hasKey g := by
  induction cs with
  | nil => rfl
  | cons p t ih =>
    by_cases hp : p.1 = f
    · simp [Calls.update, Calls.hasKey, hp]
    · simp [Calls.update, Calls.hasKey, hp, ih]

theorem Calls.hasKey_append (l₁ l₂ : Calls) (f : Int) :
    (l₁ ++ l₂).hasKey f = (l₁.hasKey f || l₂.hasKey f) := by
  induction l₁ with
  | nil => simp [Calls.hasKey]
  | cons p t ih =>
    simp [Calls.hasKey, ih, Bool.or_assoc]

theorem Calls.update_append_fresh (l₁ l₂ : Calls) (f : Int) (d : HallDir)
    (h : l₁.hasKey f = false) : (l₁ ++ l₂).update f d = l₁ ++ l₂.update f d := by
  induction l₁ with
  | nil => rfl
  | cons p t ih =>
    rw [Calls.hasKey] at h
    simp only [Bool.or_eq_false_iff] at h
    have hp : p.1 ≠ f := by simpa using h.1
    simp [Calls.update, hp, ih h.2]

theorem Calls.add_add (cs : Calls) (f : Int) (d : HallDir) :
    (cs.add f d).add f d = cs.add f d := by
  have hK : (cs.add f d).hasKey f = true := by
    by_cases h : cs.hasKey f = true
    · rw [Calls.add, if_pos h, Calls.hasKey_update]
      exact h
    · rw [Calls.add, if_neg h, Calls.hasKey_append]
      simp [Calls.hasKey]
  rw [Calls.add, if_pos hK]
  by_cases h : cs.hasKey f = true
  · rw [show cs.add f d = cs.update f d from by rw [Calls.add, if_pos h]]
    exact Calls.update_update cs f d
  · have h' : cs.hasKey f = false := by simpa using h
    rw [show cs.add f d = cs ++ [(f, CallSet.empty.insert d)] from by
      rw [Calls.add, if_neg h]]
    rw [Calls.update_append_fresh _ _ _ _ h']
    simp [Calls.update, CallSet.insert_idem]

theorem Elevator.pressFloor_idem (e : Elevator) (f : Int) :
    (e.pressFloor f).pressFloor f = e.pressFloor f := by
  unfold Elevator.pressFloor
  by_cases h : (e.minFloor ≤ f ∧ f ≤ e.maxFloor)
  · simp [Elevator.validFloor, h.1, h.2, Finset.insert_idem]
  · have hv : e.validFloor f = false := by
      simp only [Elevator.validFloor, Bool.and_eq_false_iff, decide_eq_false_iff_not]
      by_cases h1 : e.minFloor ≤ f
      · exact Or.inr (fun h2 => h ⟨h1, h2⟩)
      · exact Or.inl h1
    simp [hv]

theorem Elevator.callFrom_idem (e : Elevator) (f : Int) (d : String) :
    (e.callFrom f d).callFrom f d = e.callFrom f d := by
  by_cases h1 : e.validFloor f = true
  · by_cases h2 : (f == e.maxFloor && normDir d == HallDir.up) = true
    · have he : e.callFrom f d = e := by
        unfold Elevator.callFrom
        rw [if_neg (by simp [h1]), if_pos h2]
      rw [he, he]
    · by_cases h3 : (f == e.minFloor && normDir d == HallDir.down) = true
      · have he : e.callFrom f d = e := by
          unfold Elevator.callFrom
          rw [if_neg (by simp [h1]), if_neg h2, if_pos h3]
        rw [he, he]
      · have hacc : e.callFrom f d = { e with calls := e.calls.add f (normDir d) } := by
          unfold Elevator.callFrom
          rw [if_neg (by simp [h1]), if_neg h2, if_neg h3]
        rw [hacc]
        unfold Elevator.callFrom
        rw [if_neg (by simp; exact (by simpa [Elevator.validFloor] using h1)),
          if_neg h2, if_neg h3]
        simp [Calls.add_add]
  · have he : e.callFrom f d = e := by
      unfold Elevator.callFrom
      rw [if_pos (by simp [h1])]
    rw [he, he]

theorem iterate_of_idem (F : Elevator → Elevator)
    (hF : ∀ s, F (F s) = F s) (e : Elevator) :
    ∀ n : ℕ, 1 ≤ n → F^[n] e = F e := by
  intro n hn
  induction n with
  | zero => exact absurd hn (by norm_num)
  | succ m ih =>
    by_cases hm : m = 0
    · subst hm
      simp
    · rw [Function.iterate_succ_apply', ih (Nat.one_le_iff_ne_zero.mpr hm)]
      exact hF e

/-- C8.  For an in-range floor, repeating `pressFloor(f)` or
`callFrom(f, d)` any number `n ≥ 1` of times produces exactly the state a
single call produces: panel requests are a set (line 47) and the call map
adds the pair into a per-floor set (lines 66–67). -/
theorem registration_idempotent (e : Elevator) (f : Int) (d : String)
    (hlo : e.minFloor ≤ f) (hhi : f ≤ e.maxFloor) :
    (∀ n : ℕ, 1 ≤ n → (fun s : Elevator => s.pressFloor f)^[n] e = e.pressFloor f) ∧
    (∀ n : ℕ, 1 ≤ n → (fun s : Elevator => s.callFrom f d)^[n] e = e.callFrom f d) :=
  ⟨iterate_of_idem _ (fun s => s.pressFloor_idem f) e,
   iterate_of_idem _ (fun s => s.callFrom_idem f d) e⟩

/-- Witness for C8: pressing floor 3 twice, and calling from floor 3 twice,
on the five-floor lift equal the single-shot states. -/
theorem registration_idempotent_witness :
    (fun s : Elevator => s.pressFloor 3)^[2] lift0 = lift0.pressFloor 3 ∧
    (fun s : Elevator => s.callFrom 3 "up")^[2] lift0 = lift0.callFrom 3 "up" :=
  ⟨(registration_idempotent lift0 3 "up" (by decide) (by decide)).1 2 (by decide),
   (registration_idempotent lift0 3 "up" (by decide) (by decide)).2 2 (by decide)⟩

/-! ## C2: what a completed door-open transition fulfils -/

theorem Elevator.fulfillAtFloor_no_call (e : Elevator)
    (h : e.calls.get e.currentFloor = none) :
    e.fulfillAtFloor = { e with requests := e.requests.erase e.currentFloor } := by
  unfold Elevator.fulfillAtFloor
  simp [h]

theorem Elevator.fulfillAtFloor_idle (e : Elevator) (s : CallSet)
    (h : e.calls.get e.currentFloor = some s) (hne : s.isEmpty = false)
    (hdir : e.direction = .idle) :
    e.fulfillAtFloor =
      { e with requests := e.requests.erase e.currentFloor,
               calls := e.calls.del e.currentFloor } := by
  unfold Elevator.fulfillAtFloor
  simp [h, hne, hdir]

theorem Elevator.fulfillAtFloor_dir_drain (e : Elevator) (s : CallSet)
    (h : e.calls.get e.currentFloor = some s) (hne : s.isEmpty = false)
    (hdir : e.direction ≠ .idle)
    (hdrain : (if s.has e.direction then s.erase e.direction else s).isEmpty = true) :
    e.fulfillAtFloor =
      { e with requests := e.requests.erase e.currentFloor,
               calls := e.calls.del e.currentFloor } := by
  unfold Elevator.fulfillAtFloor
  simp [h, hne, hdir, hdrain]

theorem Elevator.fulfillAtFloor_dir_keep (e : Elevator) (s : CallSet)
    (h : e.calls.get e.currentFloor = some s) (hne : s.isEmpty = false)
    (hdir : e.direction ≠ .idle)
    (hkeep : (if s.has e.direction then s.erase e.direction else s).isEmpty = false) :
    e.fulfillAtFloor =
      { e with requests := e.requests.erase e.currentFloor,
               calls := e.calls.setAt e.currentFloor
                 (if s.has e.direction then s.erase e.direction else s) } := by
  unfold Elevator.fulfillAtFloor
  simp [h, hne, hdir, hkeep]

/-- C2.  At the moment the Open transition completes at floor
`f = currentFloor`: the floor is dropped from the panel requests (lines
81–84); with the car Idle every call direction at `f` is fulfilled and the
floor's entry is deleted whole (lines 90–94); with the car moving, exactly
the call matching the car's direction is removed, the opposite call is
untouched, and the floor's entry is deleted precisely when its direction
set drained (lines 95–102); calls at every other floor are untouched. -/
theorem doorOpen_fulfillment (e : Elevator) (hwf : Calls.WF e.calls) :
    e.doorOpenComplete.requests = e.requests.erase e.currentFloor ∧
    (e.direction = .idle → e.doorOpenComplete.calls.get e.currentFloor = none) ∧
    (∀ hd : HallDir, e.direction = hd.toDir →
      e.doorOpenComplete.calls.hasPair e.currentFloor hd = false ∧
      e.doorOpenComplete.calls.hasPair e.currentFloor hd.opp
        = e.calls.hasPair e.currentFloor hd.opp ∧
      (e.doorOpenComplete.calls.get e.currentFloor = none ↔
        e.calls.hasPair e.currentFloor hd.opp = false)) ∧
    (∀ g, g ≠ e.currentFloor → e.doorOpenComplete.calls.get g = e.calls.get g) := by
  cases hget : e.calls.get e.currentFloor with
  | none =>
    have hD : e.doorOpenComplete =
        { e with doorsOpen := true,
                 requests := e.requests.erase e.currentFloor } := by
      unfold Elevator.doorOpenComplete
      exact Elevator.fulfillAtFloor_no_call { e with doorsOpen := true } hget
    rw [hD]
    exact ⟨rfl, fun _ => hget, fun hd _ => by
        simp [Calls.hasPair, hget], fun g _ => rfl⟩
  | some s =>
    have hs : s.isEmpty = false := by
      obtain ⟨p, hp, _, hv⟩ := Calls.get_some_mem e.calls e.currentFloor s hget
      rw [← hv]
      exact hwf.2 p hp
    cases hdir : e.direction with
    | idle =>
      have hD : e.doorOpenComplete =
          { e with doorsOpen := true,
                   requests := e.requests.erase e.currentFloor,
                   calls := e.calls.del e.currentFloor } := by
        unfold Elevator.doorOpenComplete
        exact Elevator.fulfillAtFloor_idle { e with doorsOpen := true } s hget hs hdir
      rw [hD]
      refine ⟨rfl, fun _ => Calls.get_del_self _ _, fun hd hhd => ?_,
        fun g hg => Calls.get_del_ne _ _ _ hg⟩
      exact absurd hhd (by cases hd <;> simp [HallDir.toDir])
    | up =>
      obtain ⟨su, sd⟩ := s
      have hdirne : ({ e with doorsOpen := true } : Elevator).direction ≠ .idle := by
        simp [hdir]
      cases su with
      | true =>
        cases sd with
        | true =>
          have hD : e.doorOpenComplete =
              { e with doorsOpen := true,
                       requests := e.requests.erase e.currentFloor,
                       calls := e.calls.setAt e.currentFloor ⟨false, true⟩ } := by
            unfold Elevator.doorOpenComplete
            have := Elevator.fulfillAtFloor_dir_keep { e with doorsOpen := true }
              ⟨true, true⟩ hget hs hdirne
              (by simp [hdir, CallSet.has, CallSet.erase, CallSet.isEmpty])
            simpa [hdir, CallSet.has, CallSet.erase] using this
          rw [hD]
          refine ⟨rfl, fun hid => Dir.noConfusion hid, fun hd hhd => ?_,
            fun g hg => Calls.get_setAt_ne _ _ _ _ hg⟩
          cases hd with
          | up =>
            have hget' := Calls.get_setAt_self e.calls e.currentFloor ⟨false, true⟩
              ⟨true, true⟩ hget
            simp [Calls.hasPair, hget', hget, HallDir.opp]
          | down => exact Dir.noConfusion hhd
        | false =>
          have hD : e.doorOpenComplete =
              { e with doorsOpen := true,
                       requests := e.requests.erase e.currentFloor,
                       calls := e.calls.del e.currentFloor } := by
            unfold Elevator.doorOpenComplete
            exact Elevator.fulfillAtFloor_dir_drain { e with doorsOpen := true }
              ⟨true, false⟩ hget hs hdirne
              (by simp [hdir, CallSet.has, CallSet.erase, CallSet.isEmpty])
          rw [hD]
          refine ⟨rfl, fun hid => Dir.noConfusion hid, fun hd hhd => ?_,
            fun g hg => Calls.get_del_ne _ _ _ hg⟩
          cases hd with
          | up =>
            simp [Calls.hasPair, Calls.get_del_self, hget, HallDir.opp]
          | down => exact Dir.noConfusion hhd
      | false =>
        cases sd with
        | true =>
          have hD : e.doorOpenComplete =
              { e with doorsOpen := true,
                       requests := e.requests.erase e.currentFloor,
                       calls := e.calls.setAt e.currentFloor ⟨false, true⟩ } := by
            unfold Elevator.doorOpenComplete
            have := Elevator.fulfillAtFloor_dir_keep { e with doorsOpen := true }
              ⟨false, true⟩ hget hs hdirne
              (by simp [hdir, CallSet.has, CallSet.erase, CallSet.isEmpty])
            simpa [hdir, CallSet.has, CallSet.erase] using this
          rw [hD]
          refine ⟨rfl, fun hid => Dir.noConfusion hid, fun hd hhd => ?_,
            fun g hg => Calls.get_setAt_ne _ _ _ _ hg⟩
          cases hd with
          | up =>
            have hget' := Calls.get_setAt_self e.calls e.currentFloor ⟨false, true⟩
              ⟨false, true⟩ hget
            simp [Calls.hasPair, hget', hget, HallDir.opp]
          | down => exact Dir.noConfusion hhd
        | false => simp [CallSet.isEmpty] at hs
    | down =>
      obtain ⟨su, sd⟩ := s
      have hdirne : ({ e with doorsOpen := true } : Elevator).direction ≠ .idle := by
        simp [hdir]
      cases sd with
      | true =>
        cases su with
        | true =>
          have hD : e.doorOpenComplete =
              { e with doorsOpen := true,
                       requests := e.requests.erase e.currentFloor,
                       calls := e.calls.setAt e.currentFloor ⟨true, false⟩ } := by
            unfold Elevator.doorOpenComplete
            have := Elevator.fulfillAtFloor_dir_keep { e with doorsOpen := true }
              ⟨true, true⟩ hget hs hdirne
              (by simp [hdir, CallSet.has, CallSet.erase, CallSet.isEmpty])
            simpa [hdir, CallSet.has, CallSet.erase] using this
          rw [hD]
          refine ⟨rfl, fun hid => Dir.noConfusion hid, fun hd hhd => ?_,
            fun g hg => Calls.get_setAt_ne _ _ _ _ hg⟩
          cases hd with
          | down =>
            have hget' := Calls.get_setAt_self e.calls e.currentFloor ⟨true, false⟩
              ⟨true, true⟩ hget
            simp [Calls.hasPair, hget', hget, HallDir.opp]
          | up => exact Dir.noConfusion hhd
        | false =>
          have hD : e.doorOpenComplete =
              { e with doorsOpen := true,
                       requests := e.requests.erase e.currentFloor,
                       calls := e.calls.del e.currentFloor } := by
            unfold Elevator.doorOpenComplete
            exact Elevator.fulfillAtFloor_dir_drain { e with doorsOpen := true }
              ⟨false, true⟩ hget hs hdirne
              (by simp [hdir, CallSet.has, CallSet.erase, CallSet.isEmpty])
          rw [hD]
          refine ⟨rfl, fun hid => Dir.noConfusion hid, fun hd hhd => ?_,
            fun g hg => Calls.get_del_ne _ _ _ hg⟩
          cases hd with
          | down =>
            simp [Calls.hasPair, Calls.get_del_self, hget, HallDir.opp]
          | up => exact Dir.noConfusion hhd
      | false =>
        cases su with
        | true =>
          have hD : e.doorOpenComplete =
              { e with doorsOpen := true,
                       requests := e.requests.erase e.currentFloor,
                       calls := e.calls.setAt e.currentFloor ⟨true, false⟩ } := by
            unfold Elevator.doorOpenComplete
            have := Elevator.fulfillAtFloor_dir_keep { e with doorsOpen := true }
              ⟨true, false⟩ hget hs hdirne
              (by simp [hdir, CallSet.has, CallSet.erase, CallSet.isEmpty])
            simpa [hdir, CallSet.has, CallSet.erase] using this
          rw [hD]
          refine ⟨rfl, fun hid => Dir.noConfusion hid, fun hd hhd => ?_,
            fun g hg => Calls.get_setAt_ne _ _ _ _ hg⟩
          cases hd with
          | down =>
            have hget' := Calls.get_setAt_self e.calls e.currentFloor ⟨true, false⟩
              ⟨true, false⟩ hget
            simp [Calls.hasPair, hget', hget, HallDir.opp]
          | up => exact Dir.noConfusion hhd
        | false => simp [CallSet.isEmpty] at hs

/-- Witness for C2: at floor 2 with direction Up and both call directions
pending at floor 2, the completed open transition clears `(2, up)` and
leaves `(2, down)` pending. -/
theorem doorOpen_fulfillment_witness :
    ({ lift0 with
        currentFloor := 2
        direction := Dir.up
        calls := [(2, ⟨true, true⟩)] } : Elevator).doorOpenComplete.calls.hasPair
      2 .up = false ∧
    ({ lift0 with
        currentFloor := 2
        direction := Dir.up
        calls := [(2, ⟨true, true⟩)] } : Elevator).doorOpenComplete.calls.hasPair
      2 .down = true := by
  have h := (doorOpen_fulfillment
    { lift0 with
        currentFloor := 2
        direction := Dir.up
        calls := [(2, ⟨true, true⟩)] } (by decide)).2.2.1 HallDir.up rfl
  exact ⟨h.1, h.2.1.trans (by decide)⟩

/-! ## C9: demand only at the car's own floor idles the loop forever -/

/-- C9 (implicit).  If some demand is outstanding but every demand floor
(panel requests and hall-call floor keys alike) is the current floor, then
`_decideDirection` returns idle whatever the previous direction was
(every floor filter of lines 128–129 is empty), one loop iteration only
re-assigns the direction, and iterating the loop any number of times never
moves the car, never touches the doors and never retires the pending
demand. -/
theorem demand_at_current_floor_starves (e : Elevator)
    (hne : e.targets ≠ ∅) (hall : ∀ f ∈ e.targets, f = e.currentFloor) :
    e.decideDirection = .idle ∧
    e.loopStep = { e with direction := .idle } ∧
    (∀ n : ℕ,
      (Elevator.loopStep^[n] e).requests = e.requests ∧
      (Elevator.loopStep^[n] e).calls = e.calls ∧
      (Elevator.loopStep^[n] e).currentFloor = e.currentFloor ∧
      (Elevator.loopStep^[n] e).doorsOpen = e.doorsOpen) := by
  have habove : e.targets.filter (fun f => e.currentFloor < f) = ∅ := by
    apply Finset.filter_eq_empty_iff.mpr
    intro f hf
    rw [hall f hf]
    exact lt_irrefl _
  have hbelow : e.targets.filter (fun f => f < e.currentFloor) = ∅ := by
    apply Finset.filter_eq_empty_iff.mpr
    intro f hf
    rw [hall f hf]
    exact lt_irrefl _
  have main : ∀ e' : Elevator, e'.requests = e.requests → e'.calls = e.calls →
      e'.currentFloor = e.currentFloor → e'.decideDirection = .idle := by
    intro e' hr hc hf
    have htar : e'.targets = e.targets := by
      unfold Elevator.targets
      rw [hr, hc]
    have habove' : e'.targets.filter (fun f => e'.currentFloor < f) = ∅ := by
      rw [htar, hf]
      exact habove
    have hbelow' : e'.targets.filter (fun f => f < e'.currentFloor) = ∅ := by
      rw [htar, hf]
      exact hbelow
    unfold Elevator.decideDirection
    by_cases hg : e'.requests = ∅ ∧ e'.calls = []
    · rw [if_pos hg]
    · rw [if_neg hg]
      cases hdir : e'.direction <;> simp [habove', hbelow']
  have mainLoop : ∀ e' : Elevator, e'.requests = e.requests → e'.calls = e.calls →
      e'.currentFloor = e.currentFloor →
      e'.loopStep = { e' with direction := .idle } := by
    intro e' hr hc hf
    unfold Elevator.loopStep
    rw [main e' hr hc hf]
    simp
  have hdec : e.decideDirection = .idle := main e rfl rfl rfl
  have hloop : e.loopStep = { e with direction := .idle } := mainLoop e rfl rfl rfl
  have hfix : Elevator.loopStep { e with direction := .idle } =
      { e with direction := .idle } :=
    mainLoop { e with direction := .idle } rfl rfl rfl
  have hiter : ∀ n : ℕ, Elevator.loopStep^[n] e = e ∨
      Elevator.loopStep^[n] e = { e with direction := .idle } := by
    intro n
    induction n with
    | zero => exact Or.inl rfl
    | succ m ih =>
      rw [Function.iterate_succ_apply']
      cases ih with
      | inl h =>
        rw [h, hloop]
        exact Or.inr rfl
      | inr h =>
        rw [h, hfix]
        exact Or.inr rfl
  refine ⟨hdec, hloop, fun n => ?_⟩
  cases hiter n with
  | inl h =>
    rw [h]
    exact ⟨rfl, rfl, rfl, rfl⟩
  | inr h =>
    rw [h]
    exact ⟨rfl, rfl, rfl, rfl⟩

/-- Witness for C9: a car at floor 2 whose only pending demand is the
hall call `(2, down)` decides idle and, even after three loop iterations,
still holds that call at the same floor. -/
theorem demand_at_current_floor_starves_witness :
    ({ lift0 with
        currentFloor := 2
        direction := Dir.up
        calls := [(2, ⟨false, true⟩)] } : Elevator).decideDirection = Dir.idle ∧
    (Elevator.loopStep^[3] { lift0 with
        currentFloor := 2
        direction := Dir.up
        calls := [(2, ⟨false, true⟩)] }).calls = [(2, ⟨false, true⟩)] := by
  have h := demand_at_current_floor_starves
    { lift0 with
        currentFloor := 2
        direction := Dir.up
        calls := [(2, ⟨false, true⟩)] } (by decide) (by decide)
  exact ⟨h.1, (h.2.2 3).2.1⟩

/-! ## C1: the direction decision implements the four spec rules -/

theorem targets_eq_specDemand (e : Elevator) (hwf : Calls.WF e.calls) :
    e.targets = e.specDemand := by
  unfold Elevator.targets Elevator.specDemand
  have hfe : e.calls.filter (fun p => !p.2.isEmpty) = e.calls :=
    List.filter_eq_self.mpr (fun p hp => by simp [hwf.2 p hp])
  rw [hfe]

theorem specDemand_empty_of_no_demand (e : Elevator)
    (h : e.requests = ∅ ∧ e.calls = []) : e.specDemand = ∅ := by
  unfold Elevator.specDemand
  rw [h.1, h.2]
  rfl

theorem min'_eq_of_eq (s t : Finset Int) (h : s = t) (hs : s.Nonempty)
    (ht : t.Nonempty) : s.min' hs = t.min' ht := by
  subst h
  rfl

theorem max'_eq_of_eq (s t : Finset Int) (h : s = t) (hs : s.Nonempty)
    (ht : t.Nonempty) : s.max' hs = t.max' ht := by
  subst h
  rfl

/-- C1.  Under the call-map representation invariant, `_decideDirection`
(lines 119–149) realises the spec's four rules over the spec's demand set
(every panel-request floor plus every floor with a non-empty call set):
no demand gives Idle; moving Up continues Up on any demand strictly above,
else reverses on demand below, else Idle; moving Down symmetrically; and
Idle picks the side with the nearer closest demand floor, preferring Up on
an exact distance tie. -/
theorem decideDirection_matches_spec (e : Elevator) (hwf : Calls.WF e.calls) :
    ((e.requests = ∅ ∧ e.calls = []) → e.decideDirection = .idle) ∧
    (e.direction = .up →
      ((∃ f ∈ e.specDemand, e.currentFloor < f) → e.decideDirection = .up) ∧
      (¬(∃ f ∈ e.specDemand, e.currentFloor < f) →
        (∃ f ∈ e.specDemand, f < e.currentFloor) → e.decideDirection = .down) ∧
      (¬(∃ f ∈ e.specDemand, e.currentFloor < f) →
        ¬(∃ f ∈ e.specDemand, f < e.currentFloor) → e.decideDirection = .idle)) ∧
    (e.direction = .down →
      ((∃ f ∈ e.specDemand, f < e.currentFloor) → e.decideDirection = .down) ∧
      (¬(∃ f ∈ e.specDemand, f < e.currentFloor) →
        (∃ f ∈ e.specDemand, e.currentFloor < f) → e.decideDirection = .up) ∧
      (¬(∃ f ∈ e.specDemand, f < e.currentFloor) →
        ¬(∃ f ∈ e.specDemand, e.currentFloor < f) → e.decideDirection = .idle)) ∧
    (e.direction = .idle →
      ∀ hA : (e.specDemand.filter (fun f => e.currentFloor < f)).Nonempty,
      ∀ hB : (e.specDemand.filter (fun f => f < e.currentFloor)).Nonempty,
        e.decideDirection =
          if (e.specDemand.filter (fun f => e.currentFloor < f)).min' hA
                - e.currentFloor ≤
              e.currentFloor -
                (e.specDemand.filter (fun f => f < e.currentFloor)).max' hB
          then .up else .down) ∧
    (e.direction = .idle → ¬(∃ f ∈ e.specDemand, e.currentFloor < f) →
      (∃ f ∈ e.specDemand, f < e.currentFloor) → e.decideDirection = .down) ∧
    (e.direction = .idle → (∃ f ∈ e.specDemand, e.currentFloor < f) →
      ¬(∃ f ∈ e.specDemand, f < e.currentFloor) → e.decideDirection = .up) := by
  have htd := targets_eq_specDemand e hwf
  have hAiff : (∃ f ∈ e.specDemand, e.currentFloor < f) ↔
      e.targets.filter (fun f => e.currentFloor < f) ≠ ∅ := by
    rw [htd, ← Finset.nonempty_iff_ne_empty, Finset.filter_nonempty_iff]
  have hBiff : (∃ f ∈ e.specDemand, f < e.currentFloor) ↔
      e.targets.filter (fun f => f < e.currentFloor) ≠ ∅ := by
    rw [htd, ← Finset.nonempty_iff_ne_empty, Finset.filter_nonempty_iff]
  by_cases hg : e.requests = ∅ ∧ e.calls = []
  · have hdem := specDemand_empty_of_no_demand e hg
    have hdec : e.decideDirection = .idle := by
      unfold Elevator.decideDirection
      rw [if_pos hg]
    have hnoA : ¬(∃ f ∈ e.specDemand, e.currentFloor < f) := by
      rw [hdem]
      simp
    have hnoB : ¬(∃ f ∈ e.specDemand, f < e.currentFloor) := by
      rw [hdem]
      simp
    have hnoAn : ¬(e.specDemand.filter (fun f => e.currentFloor < f)).Nonempty :=
      fun hc => hnoA (Finset.filter_nonempty_iff.mp hc)
    exact ⟨fun _ => hdec, fun _ => ⟨fun h => absurd h hnoA,
        fun _ h => absurd h hnoB, fun _ _ => hdec⟩,
      fun _ => ⟨fun h => absurd h hnoB, fun _ h => absurd h hnoA,
        fun _ _ => hdec⟩,
      fun _ hA _ => absurd hA hnoAn,
      fun _ _ h => absurd h hnoB,
      fun _ h => absurd h hnoA⟩
  · cases hdirx : e.direction with
    | up =>
      have hvalue : e.decideDirection =
          (if e.targets.filter (fun f => e.currentFloor < f) ≠ ∅ then Dir.up
           else if e.targets.filter (fun f => f < e.currentFloor) ≠ ∅ then Dir.down
           else Dir.idle) := by
        unfold Elevator.decideDirection
        rw [if_neg hg, hdirx]
      refine ⟨fun h => absurd h hg, fun _ => ⟨?_, ?_, ?_⟩,
        fun hd => Dir.noConfusion hd, fun hd => Dir.noConfusion hd,
        fun hd => Dir.noConfusion hd, fun hd => Dir.noConfusion hd⟩
      · intro hA
        rw [hvalue, if_pos (hAiff.mp hA)]
      · intro hnA hB
        rw [hvalue, if_neg (fun hc => hnA (hAiff.mpr hc)),
          if_pos (hBiff.mp hB)]
      · intro hnA hnB
        rw [hvalue, if_neg (fun hc => hnA (hAiff.mpr hc)),
          if_neg (fun hc => hnB (hBiff.mpr hc))]
    | down =>
      have hvalue : e.decideDirection =
          (if e.targets.filter (fun f => f < e.currentFloor) ≠ ∅ then Dir.down
           else if e.targets.filter (fun f => e.currentFloor < f) ≠ ∅ then Dir.up
           else Dir.idle) := by
        unfold Elevator.decideDirection
        rw [if_neg hg, hdirx]
      refine ⟨fun h => absurd h hg, fun hd => Dir.noConfusion hd,
        fun _ => ⟨?_, ?_, ?_⟩, fun hd => Dir.noConfusion hd,
        fun hd => Dir.noConfusion hd, fun hd => Dir.noConfusion hd⟩
      · intro hB
        rw [hvalue, if_pos (hBiff.mp hB)]
      · intro hnB hA
        rw [hvalue, if_neg (fun hc => hnB (hBiff.mpr hc)),
          if_pos (hAiff.mp hA)]
      · intro hnB hnA
        rw [hvalue, if_neg (fun hc => hnB (hBiff.mpr hc)),
          if_neg (fun hc => hnA (hAiff.mpr hc))]
    | idle =>
      have hvalue : e.decideDirection =
          (if e.targets.filter (fun f => e.currentFloor < f) = ∅ ∧
              e.targets.filter (fun f => f < e.currentFloor) = ∅ then Dir.idle
           else if hA : e.targets.filter (fun f => e.currentFloor < f) = ∅ then
             Dir.down
           else if hB : e.targets.filter (fun f => f < e.currentFloor) = ∅ then
             Dir.up
           else
             if (e.targets.filter (fun f => e.currentFloor < f)).min'
                   (Finset.nonempty_iff_ne_empty.mpr hA) - e.currentFloor ≤
                 e.currentFloor -
                   (e.targets.filter (fun f => f < e.currentFloor)).max'
                     (Finset.nonempty_iff_ne_empty.mpr hB)
             then Dir.up else Dir.down) := by
        unfold Elevator.decideDirection
        rw [if_neg hg, hdirx]
      refine ⟨fun h => absurd h hg, fun hd => Dir.noConfusion hd,
        fun hd => Dir.noConfusion hd, fun _ hA hB => ?_,
        fun _ hnA hB => ?_, fun _ hA hnB => ?_⟩
      · have hAt : e.targets.filter (fun f => e.currentFloor < f) ≠ ∅ := by
          rw [htd]
          exact Finset.nonempty_iff_ne_empty.mp hA
        have hBt : e.targets.filter (fun f => f < e.currentFloor) ≠ ∅ := by
          rw [htd]
          exact Finset.nonempty_iff_ne_empty.mp hB
        rw [hvalue, if_neg (fun hc => hAt hc.1), dif_neg hAt, dif_neg hBt,
          min'_eq_of_eq _ _ (by rw [htd]) (Finset.nonempty_iff_ne_empty.mpr hAt) hA,
          max'_eq_of_eq _ _ (by rw [htd]) (Finset.nonempty_iff_ne_empty.mpr hBt) hB]
      · have hAt : e.targets.filter (fun f => e.currentFloor < f) = ∅ := by
          rw [htd]
          by_contra hc
          exact hnA (Finset.filter_nonempty_iff.mp
            (Finset.nonempty_iff_ne_empty.mpr hc))
        have hBt : e.targets.filter (fun f => f < e.currentFloor) ≠ ∅ :=
          hBiff.mp hB
        rw [hvalue, if_neg (fun hc => hBt hc.2), dif_pos hAt]
      · have hAt : e.targets.filter (fun f => e.currentFloor < f) ≠ ∅ :=
          hAiff.mp hA
        have hBt : e.targets.filter (fun f => f < e.currentFloor) = ∅ := by
          by_contra hc
          exact hnB (hBiff.mpr hc)
        rw [hvalue, if_neg (fun hc => hAt hc.1), dif_neg hAt, dif_pos hBt]

/-- Witness for C1: in the floor-2 tie scenario (idle at floor 1, demand
only above), the idle rule with empty below-side yields Up. -/
theorem decideDirection_matches_spec_witness :
    tieScenario.decideDirection = Dir.up :=
  (decideDirection_matches_spec tieScenario (by decide)).2.2.2.2.2
    (by decide) (by decide) (by decide)

/-! ## C5: all floor-valued state stays within the configured range -/

theorem Calls.mem_del (cs : Calls) (f : Int) (p : Int × CallSet)
    (h : p ∈ cs.del f) : p ∈ cs := by
  induction cs with
  | nil => simpa [Calls.del] using h
  | cons q t ih =>
    by_cases hq : q.1 = f
    · rw [Calls.del, if_pos hq] at h
      exact List.mem_cons_of_mem q (ih h)
    · rw [Calls.del, if_neg hq] at h
      cases List.mem_cons.mp h with
      | inl h' => exact h' ▸ List.mem_cons_self q t
      | inr h' => exact List.mem_cons_of_mem q (ih h')

theorem Calls.mem_setAt_key (cs : Calls) (f : Int) (s : CallSet)
    (p : Int × CallSet) (h : p ∈ cs.setAt f s) : ∃ q ∈ cs, p.1 = q.1 := by
  induction cs with
  | nil => simp [Calls.setAt] at h
  | cons q t ih =>
    by_cases hq : q.1 = f
    · rw [Calls.setAt, if_pos hq] at h
      cases List.mem_cons.mp h with
      | inl h' => exact ⟨q, List.mem_cons_self q t, by rw [h']⟩
      | inr h' => exact ⟨p, List.mem_cons_of_mem q h', rfl⟩
    · rw [Calls.setAt, if_neg hq] at h
      cases List.mem_cons.mp h with
      | inl h' => exact ⟨q, List.mem_cons_self q t, by rw [h']⟩
      | inr h' =>
        obtain ⟨r, hr, hk⟩ := ih h'
        exact ⟨r, List.mem_cons_of_mem q hr, hk⟩

theorem Calls.mem_update_key (cs : Calls) (f : Int) (d : HallDir)
    (p : Int × CallSet) (h : p ∈ cs.update f d) : ∃ q ∈ cs, p.1 = q.1 := by
  induction cs with
  | nil => simp [Calls.update] at h
  | cons q t ih =>
    by_cases hq : q.1 = f
    · rw [Calls.update, if_pos hq] at h
      cases List.mem_cons.mp h with
      | inl h' => exact ⟨q, List.mem_cons_self q t, by rw [h']⟩
      | inr h' => exact ⟨p, List.mem_cons_of_mem q h', rfl⟩
    · rw [Calls.update, if_neg hq] at h
      cases List.mem_cons.mp h with
      | inl h' => exact ⟨q, List.mem_cons_self q t, by rw [h']⟩
      | inr h' =>
        obtain ⟨r, hr, hk⟩ := ih h'
        exact ⟨r, List.mem_cons_of_mem q hr, hk⟩

theorem Calls.mem_add (cs : Calls) (f : Int) (d : HallDir) (p : Int × CallSet)
    (h : p ∈ cs.add f d) : (∃ q ∈ cs, p.1 = q.1) ∨ p.1 = f := by
  unfold Calls.add at h
  by_cases hk : cs.hasKey f = true
  · rw [if_pos hk] at h
    exact Or.inl (Calls.mem_update_key cs f d p h)
  · rw [if_neg hk] at h
    cases List.mem_append.mp h with
    | inl h' => exact Or.inl ⟨p, h', rfl⟩
    | inr h' =>
      right
      have : p = (f, CallSet.empty.insert d) := by simpa using h'
      rw [this]

theorem Elevator.closeDoors_RangeInv (e : Elevator) (h : e.RangeInv) :
    e.closeDoors.RangeInv := by
  unfold Elevator.closeDoors
  split
  · exact ⟨h.1, h.2.1, h.2.2⟩
  · exact h

theorem Elevator.fulfillAtFloor_RangeInv (e : Elevator) (h : e.RangeInv) :
    e.fulfillAtFloor.RangeInv := by
  obtain ⟨hcur, hreq, hcall⟩ := h
  have hreq' : ∀ f ∈ e.requests.erase e.currentFloor,
      e.minFloor ≤ f ∧ f ≤ e.maxFloor :=
    fun f hf => hreq f (Finset.mem_of_mem_erase hf)
  unfold Elevator.fulfillAtFloor
  dsimp only
  split
  · exact ⟨hcur, hreq', hcall⟩
  · split
    · exact ⟨hcur, hreq', hcall⟩
    · split
      · exact ⟨hcur, hreq', fun p hp => hcall p (Calls.mem_del _ _ _ hp)⟩
      · split
        · split
          · exact ⟨hcur, hreq', fun p hp => hcall p (Calls.mem_del _ _ _ hp)⟩
          · refine ⟨hcur, hreq', fun p hp => ?_⟩
            obtain ⟨q, hq, hk⟩ := Calls.mem_setAt_key _ _ _ _ hp
            rw [hk]
            exact hcall q hq
        · refine ⟨hcur, hreq', fun p hp => ?_⟩
          obtain ⟨q, hq, hk⟩ := Calls.mem_setAt_key _ _ _ _ hp
          rw [hk]
          exact hcall q hq

theorem Elevator.openDoors_RangeInv (e : Elevator) (h : e.RangeInv) :
    e.openDoors.RangeInv := by
  unfold Elevator.openDoors
  split
  · exact h
  · exact Elevator.closeDoors_RangeInv _
      (Elevator.fulfillAtFloor_RangeInv { e with doorsOpen := true }
        ⟨h.1, h.2.1, h.2.2⟩)

theorem Elevator.moveOneFloor_RangeInv (e : Elevator) (h : e.RangeInv) :
    e.moveOneFloor.RangeInv := by
  unfold Elevator.moveOneFloor
  dsimp only
  split
  · exact h
  · split
    · exact h
    · split
      · split
        · exact ⟨h.1, h.2.1, h.2.2⟩
        · rename_i hvalid
          have hb : e.minFloor ≤ e.currentFloor + 1 ∧
              e.currentFloor + 1 ≤ e.maxFloor := by
            have hv : e.validFloor (e.currentFloor + 1) = true := by
              simpa using hvalid
            simpa [Elevator.validFloor] using hv
          split
          · exact Elevator.openDoors_RangeInv _ ⟨hb, h.2.1, h.2.2⟩
          · exact ⟨hb, h.2.1, h.2.2⟩
      · split
        · exact ⟨h.1, h.2.1, h.2.2⟩
        · rename_i hvalid
          have hb : e.minFloor ≤ e.currentFloor - 1 ∧
              e.currentFloor - 1 ≤ e.maxFloor := by
            have hv : e.validFloor (e.currentFloor - 1) = true := by
              simpa using hvalid
            simpa [Elevator.validFloor] using hv
          split
          · exact Elevator.openDoors_RangeInv _ ⟨hb, h.2.1, h.2.2⟩
          · exact ⟨hb, h.2.1, h.2.2⟩

theorem Elevator.loopStep_RangeInv (e : Elevator) (h : e.RangeInv) :
    e.loopStep.RangeInv := by
  unfold Elevator.loopStep
  dsimp only
  have h1 : ({ e with direction := e.decideDirection } : Elevator).RangeInv :=
    ⟨h.1, h.2.1, h.2.2⟩
  split
  · exact h1
  · split
    · exact Elevator.moveOneFloor_RangeInv _ (Elevator.closeDoors_RangeInv _ h1)
    · exact Elevator.moveOneFloor_RangeInv _ h1

/-- C5.  Under `minFloor < maxFloor`, every operation preserves the range
invariant (the current floor, every panel-request floor and every hall-call
key lie in `[minFloor, maxFloor]`): construction establishes it, demand
registration is guarded by `_validFloor`, the movement step validates the
hop target before writing it (lines 158–164), and the door operations only
shrink the demand sets; in particular a hop whose target would leave the
range only sets the direction to Idle and keeps the position. -/
theorem range_invariant :
    (∀ (lo hi : Int) (nm : String) (t d dw : Nat), lo < hi →
      (Elevator.mk' lo hi nm t d dw).RangeInv) ∧
    (∀ (e : Elevator) (f : Int), e.RangeInv → (e.pressFloor f).RangeInv) ∧
    (∀ (e : Elevator) (f : Int) (d : String), e.RangeInv →
      (e.callFrom f d).RangeInv) ∧
    (∀ e : Elevator, e.RangeInv → e.moveOneFloor.RangeInv) ∧
    (∀ e : Elevator, e.RangeInv → e.openDoors.RangeInv) ∧
    (∀ e : Elevator, e.RangeInv → e.closeDoors.RangeInv) ∧
    (∀ e : Elevator, e.RangeInv → e.loopStep.RangeInv) ∧
    (∀ e : Elevator, e.doorsOpen = false → e.direction ≠ .idle →
      e.validFloor e.hopTarget = false →
      e.moveOneFloor = { e with direction := .idle }) := by
  refine ⟨?_, ?_, ?_, Elevator.moveOneFloor_RangeInv, Elevator.openDoors_RangeInv,
    Elevator.closeDoors_RangeInv, Elevator.loopStep_RangeInv, ?_⟩
  · intro lo hi nm t d dw hlt
    exact ⟨⟨le_refl lo, le_of_lt hlt⟩, fun f hf => by simp [Elevator.mk'] at hf,
      fun p hp => by simp [Elevator.mk'] at hp⟩
  · intro e f h
    unfold Elevator.pressFloor
    split
    · rename_i hv
      refine ⟨h.1, fun g hg => ?_, h.2.2⟩
      rcases Finset.mem_insert.mp hg with hg | hg
      · subst hg
        simpa [Elevator.validFloor] using hv
      · exact h.2.1 g hg
    · exact h
  · intro e f d h
    unfold Elevator.callFrom
    dsimp only
    split
    · exact h
    · split
      · exact h
      · split
        · exact h
        · rename_i hv _ _
          refine ⟨h.1, h.2.1, fun p hp => ?_⟩
          rcases Calls.mem_add _ _ _ _ hp with ⟨q, hq, hk⟩ | hk
          · rw [hk]
            exact h.2.2 q hq
          · rw [hk]
            have : e.validFloor f = true := by
              simpa using hv
            simpa [Elevator.validFloor] using this
  · intro e hdoors hdir hv
    have hv' : e.validFloor (if e.direction = .up then e.currentFloor + 1
        else e.currentFloor - 1) = false := hv
    unfold Elevator.moveOneFloor
    rw [if_neg (by simp [hdoors]), if_neg hdir, if_pos (by simp [hv'])]

/-- Witness for C5: the constructor on floors 1–5 satisfies the invariant,
pressing floor 3 preserves it, and at the top floor heading Up the guarded
hop only idles the direction. -/
theorem range_invariant_witness :
    (Elevator.mk' 1 5 "lift" 400 700 0).RangeInv ∧
    ((Elevator.mk' 1 5 "lift" 400 700 0).pressFloor 3).RangeInv ∧
    ({ lift0 with currentFloor := 5, direction := Dir.up } : Elevator).moveOneFloor
      = { lift0 with currentFloor := 5, direction := Dir.idle } :=
  ⟨range_invariant.1 1 5 "lift" 400 700 0 (by decide),
   range_invariant.2.1 _ 3 (range_invariant.1 1 5 "lift" 400 700 0 (by decide)),
   range_invariant.2.2.2.2.2.2.2 { lift0 with currentFloor := 5, direction := Dir.up }
     rfl (by decide) (by decide)⟩
